import Mathlib

/-
Verification of the incremental document indexing engine (src/ingestion.py).

The script is embedded shallowly: filesystem paths are lists of components
(os.path.join is list append), the directory tree is an inductive value,
os.walk is a pure function over it, and the `__main__` body is a pure
function `runIngest` from a `RunInput` (corpus tree, previous backend store,
loader, text splitter and backend-delete oracle — the last three are the
external services the script calls) to an `Except`, since an uncaught loader
exception aborts the Python process.
-/

namespace Ingestion

/-- A filesystem path, as its list of components: `os.path.join a b` is
list append of the component lists. -/
abbrev Path := List String

/-- A langchain `Document`: page content plus the two metadata keys the
script reads and writes (`product`, `source`). -/
structure Doc where
  content : String
  product : String
  source : Path
deriving DecidableEq, Repr

/-- A directory tree: named subdirectories and file names. -/
inductive FSTree where
  | node : List (String × FSTree) → List String → FSTree

/-- Subdirectories of the root of a tree. -/
def FSTree.dirs : FSTree → List (String × FSTree)
  | .node ds _ => ds

/-- File names directly at the root of a tree. -/
def FSTree.files : FSTree → List String
  | .node _ fs => fs

mutual

/-- The walk `os.walk` of a tree with roots given RELATIVE to the tree's own root:
one `(root, dirnames, filenames)` triple per directory, top-down, the
tree's root first, subdirectories in listing order. -/
def walkRel : FSTree → List (Path × List String × List String)
  | .node ds fs => ([], ds.map Prod.fst, fs) :: walkRelDirs ds
termination_by structural t => t

/-- The tail of `walkRel`: the walks of the subdirectories, in order, each
root prefixed with its subdirectory's name. -/
def walkRelDirs : List (String × FSTree) → List (Path × List String × List String)
  | [] => []
  | (d, sub) :: rest =>
      (walkRel sub).map (fun e => (d :: e.1, e.2)) ++ walkRelDirs rest
termination_by structural l => l

end

/-- The walk `os.walk p` where the tree `t` is mounted at path `p`. -/
def walk (p : Path) (t : FSTree) : List (Path × List String × List String) :=
  (walkRel t).map (fun e => (p ++ e.1, e.2))

/-- First subdirectory of the given name in a listing. -/
def lookupDirs : List (String × FSTree) → String → Option FSTree
  | [], _ => none
  | (d, sub) :: rest, name => if d = name then some sub else lookupDirs rest name

/-- Whether `os.path.join(base, name)` names an existing directory: the
script joins every walked directory name onto the BASE directory, so only
top-level subdirectories of the base resolve; `os.walk` of a path that does
not exist yields nothing. -/
def FSTree.lookupTop (t : FSTree) (name : String) : Option FSTree :=
  lookupDirs t.dirs name

/-- The test `file.endswith(".md") or file.endswith(".pdf")` (ingestion.py line 59),
written on the character lists. -/
def recognized (f : String) : Bool :=
  List.isSuffixOf ".md".data f.data || List.isSuffixOf ".pdf".data f.data

/-- One file the scanner decides to handle: the product label it is tagged
with and its full path. -/
structure ScanEntry where
  product : String
  path : Path
deriving DecidableEq, Repr

/-- The inner loop of the scanner (ingestion.py lines 57-61): walk
`base ++ [d]`, keep recognized files, full path `product_root ++ [file]`,
product label `d`. -/
def entriesOfProduct (base : Path) (d : String) (sub : FSTree) : List ScanEntry :=
  (walk (base ++ [d]) sub).flatMap (fun pe =>
    pe.2.2.filterMap (fun f =>
      if recognized f then some (ScanEntry.mk d (pe.1 ++ [f])) else none))

/-- The scanner (ingestion.py lines 52-62): for every directory the outer
`os.walk(base_directory)` visits, for each of its subdirectory names `d`,
walk `os.path.join(base_directory, d)` — which exists only when `d` is a
top-level subdirectory of the base — and emit its recognized files. -/
def scanEntries (base : Path) (t : FSTree) : List ScanEntry :=
  (walk base t).flatMap (fun e =>
    e.2.1.flatMap (fun d =>
      match t.lookupTop d with
      | none => []
      | some sub => entriesOfProduct base d sub))

/-- The method `CharacterTextSplitter.split_documents`: split each document's text and
wrap every piece as a document carrying the original's metadata. The text
splitting itself is the external splitter, a parameter of the run. -/
def splitDocuments (splitText : String → List String) (docs : List Doc) : List Doc :=
  docs.flatMap (fun d => (splitText d.content).map (fun c => { d with content := c }))

/-- The mutable state of the scan-and-load loop (ingestion.py lines 12-16
and 52-90): counters, the `current_files` set (insertion order), the
"Reading file"/"Skipping" log lines as path lists, the accumulated
`documents`, and the printed `len(texts)` chunk counts. -/
structure ScanState where
  totalFiles : Nat
  currentFiles : List Path
  readFiles : List Path
  skippedFiles : List Path
  totalDocs : Nat
  documents : List Doc
  chunkCounts : List Nat
deriving DecidableEq, Repr

/-- State before the loop: all counters zero, all collections empty. -/
def initScan : ScanState :=
  ScanState.mk 0 [] [] [] 0 [] []

/-- The call `current_files.add(full_path)`: a Python set keeps one copy. -/
def addCurrent (l : List Path) (p : Path) : List Path :=
  if p ∈ l then l else l ++ [p]

/-- One iteration of the file loop (ingestion.py lines 58-90): count the
file, record it in `current_files`, skip it when its path is already a
source in the store; otherwise load it (an exception aborts the run),
split the loaded documents into `texts` — which the script then never
uses — stamp product and source metadata onto the LOADED documents, and
extend `documents` with those. -/
def processEntry (existing : List Path) (load : Path → Except String (List String))
    (splitText : String → List String) (st : ScanState) (e : ScanEntry) :
    Except String ScanState :=
  let st1 : ScanState :=
    { st with totalFiles := st.totalFiles + 1,
              currentFiles := addCurrent st.currentFiles e.path }
  if e.path ∈ existing then
    Except.ok { st1 with skippedFiles := st1.skippedFiles ++ [e.path] }
  else
    match load e.path with
    | Except.error msg => Except.error msg
    | Except.ok contents =>
        let rawDocs := contents.map (fun c => Doc.mk c "" e.path)
        let texts := splitDocuments splitText rawDocs
        let docs := rawDocs.map (fun d => { d with product := e.product, source := e.path })
        Except.ok { st1 with
          readFiles := st1.readFiles ++ [e.path],
          totalDocs := st1.totalDocs + docs.length,
          documents := st1.documents ++ docs,
          chunkCounts := st1.chunkCounts ++ [texts.length] }

/-- The scan-and-load loop over a list of entries, threading the state; a
loader error propagates and stops the loop. -/
def runScanFrom (existing : List Path) (load : Path → Except String (List String))
    (splitText : String → List String) :
    ScanState → List ScanEntry → Except String ScanState
  | st, [] => Except.ok st
  | st, e :: rest =>
      match processEntry existing load splitText st e with
      | Except.error msg => Except.error msg
      | Except.ok st' => runScanFrom existing load splitText st' rest

/-- The distinct `source` metadata values of the stored chunks, in first
occurrence order (ingestion.py lines 34-42 build `existing_sources` as a
set; every chunk this program stores carries a `source`). -/
def sourcesOf (chunks : List Doc) : List Path :=
  (chunks.map Doc.source).dedup

/-- The snapshot `existing_sources`: empty when there is no prior store (fresh index). -/
def existingListOf : Option (List Doc) → List Path
  | none => []
  | some chunks => sourcesOf chunks

/-- Outcome of the deletion loop: the store contents after it, and the
sources whose delete printed "Removed" vs "Error removing". -/
structure DeleteResult where
  store : List Doc
  succeeded : List Path
  failed : List Path
deriving DecidableEq, Repr

/-- The deletion loop (ingestion.py lines 101-109): for each source, try the
backend delete of every chunk whose `source` matches; an exception is caught
and the loop continues. The `deleteOk` oracle says which deletes succeed. -/
def runDeletes (deleteOk : Path → Bool) (chunks : List Doc) : List Path → DeleteResult
  | [] => DeleteResult.mk chunks [] []
  | s :: rest =>
      if deleteOk s then
        let r := runDeletes deleteOk (chunks.filter (fun c => c.source ≠ s)) rest
        DeleteResult.mk r.store (s :: r.succeeded) r.failed
      else
        let r := runDeletes deleteOk chunks rest
        DeleteResult.mk r.store r.succeeded (s :: r.failed)

/-- Recursion core of `batchesOf`, structural on a fuel bound on the list
length: each step takes one slice of 5000 and recurses on the rest. -/
def batchesGo : Nat → List Doc → List (List Doc)
  | _, [] => []
  | 0, _ :: _ => []
  | fuel + 1, x :: xs => ((x :: xs).take 5000) :: batchesGo fuel ((x :: xs).drop 5000)

/-- The loop `for i in range(0, len(documents), 5000): documents[i:i+5000]`
(ingestion.py lines 128-130): the successive slices; none for an empty
list, because the range is then empty. -/
def batchesOf (l : List Doc) : List (List Doc) :=
  batchesGo l.length l

/-- The final report (ingestion.py lines 134-139), field per printed line:
total files scanned; the "New files added" expression
`len(documents) // max(1, total_docs) if total_docs > 0 else 0`; new
documents created; files deleted from the DB; files already in the DB. -/
structure Report where
  totalFiles : Nat
  newFilesAdded : Nat
  newDocs : Nat
  deletedCount : Nat
  skippedCount : Nat
deriving DecidableEq, Repr

/-- Everything one run computes and does: the scan state, the snapshot of
existing sources, the deletion targets and results, the sequence of backend
write calls (each one batch), the store contents afterwards, and the
report. -/
structure RunOutput where
  scan : ScanState
  existingList : List Path
  deletedList : List Path
  delRes : DeleteResult
  upserts : List (List Doc)
  finalStore : List Doc
  report : Report
deriving DecidableEq, Repr

/-- A run's inputs: base directory path, corpus tree, the previous store
(`none` = the persist directory does not exist), and the three external
behaviours the script invokes — the document loader, the text splitter and
the backend delete. -/
structure RunInput where
  base : Path
  fs : FSTree
  store : Option (List Doc)
  load : Path → Except String (List String)
  splitText : String → List String
  deleteOk : Path → Bool

/-- The diff `deleted_sources = existing_sources - current_files` (ingestion.py line
93), iterated in snapshot order. -/
def deletedOf (existingList : List Path) (scan : ScanState) : List Path :=
  existingList.filter (fun p => p ∉ scan.currentFiles)

/-- Lines 94-109: the deletion loop runs only when a prior store was
opened (`if vector_store:`); on a fresh index nothing is deleted. -/
def delResOf (inp : RunInput) (deletedList : List Path) : DeleteResult :=
  match inp.store with
  | none => DeleteResult.mk [] [] []
  | some chunks => runDeletes inp.deleteOk chunks deletedList

/-- Lines 118-132: on a fresh index one `Chroma.from_documents` call takes
ALL accumulated documents; with an existing store they go out in slices of
5000 via `add_documents`. -/
def upsertsOf (inp : RunInput) (docs : List Doc) : List (List Doc) :=
  match inp.store with
  | none => [docs]
  | some _ => batchesOf docs

/-- The printed report (ingestion.py lines 134-139), field by field. -/
def reportOf (existingList deletedList : List Path) (scan : ScanState) : Report :=
  Report.mk
    scan.totalFiles
    (if 0 < scan.totalDocs then scan.documents.length / max 1 scan.totalDocs else 0)
    scan.totalDocs
    deletedList.length
    ((existingList.filter (fun p => p ∈ scan.currentFiles)).length)

/-- Everything after a successful scan: deletions, upserts, final store
contents and the report. -/
def mkRunOutput (inp : RunInput) (scan : ScanState) : RunOutput :=
  RunOutput.mk scan
    (existingListOf inp.store)
    (deletedOf (existingListOf inp.store) scan)
    (delResOf inp (deletedOf (existingListOf inp.store) scan))
    (upsertsOf inp scan.documents)
    ((delResOf inp (deletedOf (existingListOf inp.store) scan)).store ++ scan.documents)
    (reportOf (existingListOf inp.store) (deletedOf (existingListOf inp.store) scan) scan)

/-- The whole `__main__` body of ingestion.py as one function: read the
existing sources, scan and load (lines 52-90), compute and execute the
deletions (lines 92-109), write the accumulated documents — in one
`from_documents` call on a fresh index, else in batches of 5000 (lines
118-132) — and print the report (lines 134-139). -/
def runIngest (inp : RunInput) : Except String RunOutput :=
  match runScanFrom (existingListOf inp.store) inp.load inp.splitText initScan
      (scanEntries inp.base inp.fs) with
  | Except.error msg => Except.error msg
  | Except.ok scan => Except.ok (mkRunOutput inp scan)

instance {ε α : Type} [DecidableEq ε] [DecidableEq α] : DecidableEq (Except ε α) :=
  fun a b =>
    match a, b with
    | Except.ok x, Except.ok y =>
        if h : x = y then isTrue (by rw [h]) else isFalse (by simp [h])
    | Except.error x, Except.error y =>
        if h : x = y then isTrue (by rw [h]) else isFalse (by simp [h])
    | Except.ok _, Except.error _ => isFalse (by simp)
    | Except.error _, Except.ok _ => isFalse (by simp)

/-- Whether an `Except` computation succeeded. -/
def isOkE {ε α : Type} : Except ε α → Bool
  | Except.ok _ => true
  | Except.error _ => false

/-- Whether the whole run completes (the Python process exits normally)
rather than dying on an uncaught exception. -/
def runCompleted (inp : RunInput) : Bool :=
  isOkE (runIngest inp)

/-! ### Helper lemmas: the scan-and-load loop -/

theorem addCurrent_toFinset (l : List Path) (p : Path) :
    (addCurrent l p).toFinset = insert p l.toFinset := by
  unfold addCurrent
  split
  · rename_i h
    exact (Finset.insert_eq_self.mpr (List.mem_toFinset.mpr h)).symm
  · ext q
    simp [List.toFinset_append, or_comm]

theorem addCurrent_nodup {l : List Path} (p : Path) (h : l.Nodup) :
    (addCurrent l p).Nodup := by
  unfold addCurrent
  split
  · exact h
  · rename_i hp
    simpa [List.nodup_append, h] using hp

theorem addCurrent_mem_iff {l : List Path} {p q : Path} :
    q ∈ addCurrent l p ↔ q ∈ l ∨ q = p := by
  unfold addCurrent
  split
  · rename_i h
    constructor
    · exact Or.inl
    · rintro (hq | rfl)
      · exact hq
      · exact h
  · simp

/-- What one successful loop iteration did: either the file was skipped as
already present, or it was loaded and its documents appended with the
entry's metadata stamped on. -/
theorem processEntry_ok {existing : List Path} {load : Path → Except String (List String)}
    {splitText : String → List String} {st st' : ScanState} {e : ScanEntry}
    (h : processEntry existing load splitText st e = Except.ok st') :
    st'.totalFiles = st.totalFiles + 1 ∧
    st'.currentFiles = addCurrent st.currentFiles e.path ∧
    ((e.path ∈ existing ∧ st'.readFiles = st.readFiles ∧
        st'.skippedFiles = st.skippedFiles ++ [e.path] ∧
        st'.documents = st.documents ∧ st'.totalDocs = st.totalDocs) ∨
      (e.path ∉ existing ∧ ∃ contents, load e.path = Except.ok contents ∧
        st'.readFiles = st.readFiles ++ [e.path] ∧
        st'.skippedFiles = st.skippedFiles ∧
        st'.documents = st.documents ++ contents.map (fun c => Doc.mk c e.product e.path) ∧
        st'.totalDocs = st.totalDocs + contents.length)) := by
  unfold processEntry at h
  split at h
  · rename_i hmem
    cases h
    refine ⟨rfl, rfl, Or.inl ⟨hmem, rfl, rfl, rfl, rfl⟩⟩
  · rename_i hmem
    cases hld : load e.path with
    | error msg => rw [hld] at h; cases h
    | ok contents =>
        rw [hld] at h
        cases h
        refine ⟨rfl, rfl, Or.inr ⟨hmem, contents, rfl, rfl, rfl, ?_, ?_⟩⟩
        · simp [List.map_map, Function.comp]
        · simp

/-- A loader failure on a file that is not already in the store makes the
iteration fail. -/
theorem processEntry_error {existing : List Path} {load : Path → Except String (List String)}
    {splitText : String → List String} {st : ScanState} {e : ScanEntry} {msg : String}
    (hmem : e.path ∉ existing) (hld : load e.path = Except.error msg) :
    processEntry existing load splitText st e = Except.error msg := by
  unfold processEntry
  split
  · rename_i h
    exact absurd h hmem
  · rw [hld]

theorem runScanFrom_cons_ok {existing : List Path}
    {load : Path → Except String (List String)} {splitText : String → List String}
    {st st1 : ScanState} {e : ScanEntry} {rest : List ScanEntry}
    (hp : processEntry existing load splitText st e = Except.ok st1) :
    runScanFrom existing load splitText st (e :: rest) =
      runScanFrom existing load splitText st1 rest := by
  show (match processEntry existing load splitText st e with
    | Except.error msg => Except.error msg
    | Except.ok st' => runScanFrom existing load splitText st' rest) =
      runScanFrom existing load splitText st1 rest
  rw [hp]

theorem runScanFrom_cons_error {existing : List Path}
    {load : Path → Except String (List String)} {splitText : String → List String}
    {st : ScanState} {e : ScanEntry} {rest : List ScanEntry} {msg : String}
    (hp : processEntry existing load splitText st e = Except.error msg) :
    runScanFrom existing load splitText st (e :: rest) = Except.error msg := by
  show (match processEntry existing load splitText st e with
    | Except.error msg => Except.error msg
    | Except.ok st' => runScanFrom existing load splitText st' rest) = Except.error msg
  rw [hp]

theorem runScanFrom_totalFiles {existing : List Path}
    {load : Path → Except String (List String)} {splitText : String → List String} :
    ∀ {entries : List ScanEntry} {st st' : ScanState},
      runScanFrom existing load splitText st entries = Except.ok st' →
      st'.totalFiles = st.totalFiles + entries.length := by
  intro entries
  induction entries with
  | nil => intro st st' h; cases h; simp
  | cons e rest ih =>
      intro st st' h
      unfold runScanFrom at h
      cases hp : processEntry existing load splitText st e with
      | error msg => rw [hp] at h; cases h
      | ok st1 =>
          rw [hp] at h
          have h1 := (processEntry_ok hp).1
          have h2 := ih h
          rw [h2, h1, List.length_cons]
          omega

theorem runScanFrom_currentFiles {existing : List Path}
    {load : Path → Except String (List String)} {splitText : String → List String} :
    ∀ {entries : List ScanEntry} {st st' : ScanState},
      runScanFrom existing load splitText st entries = Except.ok st' →
      st'.currentFiles = entries.foldl (fun l e => addCurrent l e.path) st.currentFiles := by
  intro entries
  induction entries with
  | nil => intro st st' h; cases h; simp
  | cons e rest ih =>
      intro st st' h
      unfold runScanFrom at h
      cases hp : processEntry existing load splitText st e with
      | error msg => rw [hp] at h; cases h
      | ok st1 =>
          rw [hp] at h
          have h1 := (processEntry_ok hp).2.1
          rw [ih h, h1, List.foldl_cons]

theorem foldl_addCurrent_mem {entries : List ScanEntry} :
    ∀ {l : List Path} {q : Path},
      q ∈ entries.foldl (fun l e => addCurrent l e.path) l ↔
        q ∈ l ∨ q ∈ entries.map ScanEntry.path := by
  induction entries with
  | nil => simp
  | cons e rest ih =>
      intro l q
      rw [List.foldl_cons, ih, addCurrent_mem_iff]
      simp only [List.map_cons, List.mem_cons]
      tauto

theorem foldl_addCurrent_nodup {entries : List ScanEntry} :
    ∀ {l : List Path}, l.Nodup →
      (entries.foldl (fun l e => addCurrent l e.path) l).Nodup := by
  induction entries with
  | nil => intro l h; exact h
  | cons e rest ih =>
      intro l h
      rw [List.foldl_cons]
      exact ih (addCurrent_nodup _ h)

/-- The set of files a successful scan tracked: the initial set plus every
scanned entry's path. -/
theorem runScanFrom_currentFiles_mem {existing : List Path}
    {load : Path → Except String (List String)} {splitText : String → List String}
    {entries : List ScanEntry} {st st' : ScanState} {q : Path}
    (h : runScanFrom existing load splitText st entries = Except.ok st') :
    q ∈ st'.currentFiles ↔ q ∈ st.currentFiles ∨ q ∈ entries.map ScanEntry.path := by
  rw [runScanFrom_currentFiles h, foldl_addCurrent_mem]

/-- The list `documents` only grows during the scan. -/
theorem runScanFrom_documents_mono {existing : List Path}
    {load : Path → Except String (List String)} {splitText : String → List String} :
    ∀ {entries : List ScanEntry} {st st' : ScanState},
      runScanFrom existing load splitText st entries = Except.ok st' →
      ∃ l, st'.documents = st.documents ++ l := by
  intro entries
  induction entries with
  | nil => intro st st' h; cases h; exact ⟨[], by simp⟩
  | cons e rest ih =>
      intro st st' h
      unfold runScanFrom at h
      cases hp : processEntry existing load splitText st e with
      | error msg => rw [hp] at h; cases h
      | ok st1 =>
          rw [hp] at h
          obtain ⟨l1, hl1⟩ := ih h
          rcases (processEntry_ok hp).2.2 with ⟨_, _, _, hd, _⟩ | ⟨_, contents, _, _, _, hd, _⟩
          · exact ⟨l1, by rw [hl1, hd]⟩
          · refine ⟨contents.map (fun c => Doc.mk c e.product e.path) ++ l1, ?_⟩
            rw [hl1, hd, List.append_assoc]

/-- The printed `total_docs` counter equals the number of accumulated
documents throughout the scan. -/
theorem runScanFrom_totalDocs {existing : List Path}
    {load : Path → Except String (List String)} {splitText : String → List String} :
    ∀ {entries : List ScanEntry} {st st' : ScanState},
      runScanFrom existing load splitText st entries = Except.ok st' →
      st.totalDocs = st.documents.length →
      st'.totalDocs = st'.documents.length := by
  intro entries
  induction entries with
  | nil => intro st st' h h0; cases h; exact h0
  | cons e rest ih =>
      intro st st' h h0
      unfold runScanFrom at h
      cases hp : processEntry existing load splitText st e with
      | error msg => rw [hp] at h; cases h
      | ok st1 =>
          rw [hp] at h
          refine ih h ?_
          rcases (processEntry_ok hp).2.2 with ⟨_, _, _, hd, ht⟩ | ⟨_, contents, _, _, _, hd, ht⟩
          · rw [ht, hd, h0]
          · rw [ht, hd, h0]; simp

/-- Every document a successful scan accumulated either was there before or
came from one of the entries, with that entry's product and path stamped as
its metadata and its path not among the existing sources. -/
theorem runScanFrom_documents_from {existing : List Path}
    {load : Path → Except String (List String)} {splitText : String → List String} :
    ∀ {entries : List ScanEntry} {st st' : ScanState},
      runScanFrom existing load splitText st entries = Except.ok st' →
      ∀ d ∈ st'.documents, d ∈ st.documents ∨
        ∃ e ∈ entries, e.path ∉ existing ∧ ∃ c, d = Doc.mk c e.product e.path := by
  intro entries
  induction entries with
  | nil =>
      intro st st' h d hd
      cases h
      exact Or.inl hd
  | cons e rest ih =>
      intro st st' h d hd
      unfold runScanFrom at h
      cases hp : processEntry existing load splitText st e with
      | error msg => rw [hp] at h; cases h
      | ok st1 =>
          rw [hp] at h
          rcases ih h d hd with hin | ⟨e', he', hnew, c, hc⟩
          · rcases (processEntry_ok hp).2.2 with ⟨_, _, _, hd1, _⟩ | ⟨hnew, contents, _, _, _, hd1, _⟩
            · rw [hd1] at hin
              exact Or.inl hin
            · rw [hd1, List.mem_append] at hin
              rcases hin with hin | hin
              · exact Or.inl hin
              · simp only [List.mem_map] at hin
                obtain ⟨c, _, hc⟩ := hin
                exact Or.inr ⟨e, List.mem_cons_self e rest, hnew, c, hc.symm⟩
          · exact Or.inr ⟨e', List.mem_cons_of_mem e he', hnew, c, hc⟩

/-- If the scan loop completed, the loader succeeded on every entry it did
not skip: an unhandled loader exception would have aborted it. -/
theorem runScanFrom_loads_ok {existing : List Path}
    {load : Path → Except String (List String)} {splitText : String → List String} :
    ∀ {entries : List ScanEntry} {st st' : ScanState},
      runScanFrom existing load splitText st entries = Except.ok st' →
      ∀ e ∈ entries, e.path ∈ existing ∨ ∃ cs, load e.path = Except.ok cs := by
  intro entries
  induction entries with
  | nil => intro st st' _ e he; cases he
  | cons e0 rest ih =>
      intro st st' h e he
      unfold runScanFrom at h
      cases hp : processEntry existing load splitText st e0 with
      | error msg => rw [hp] at h; cases h
      | ok st1 =>
          rw [hp] at h
          rcases List.mem_cons.mp he with rfl | he'
          · rcases (processEntry_ok hp).2.2 with ⟨hmem, _⟩ | ⟨_, contents, hld, _⟩
            · exact Or.inl hmem
            · exact Or.inr ⟨contents, hld⟩
          · exact ih h e he'

/-- When every entry's path is already among the existing sources, the scan
succeeds and accumulates nothing: every file is skipped. -/
theorem runScanFrom_skip_all {existing : List Path}
    {load : Path → Except String (List String)} {splitText : String → List String} :
    ∀ {entries : List ScanEntry} {st : ScanState},
      (∀ e ∈ entries, e.path ∈ existing) →
      ∃ st', runScanFrom existing load splitText st entries = Except.ok st' ∧
        st'.documents = st.documents ∧ st'.readFiles = st.readFiles ∧
        st'.totalDocs = st.totalDocs := by
  intro entries
  induction entries with
  | nil => intro st _; exact ⟨st, rfl, rfl, rfl, rfl⟩
  | cons e rest ih =>
      intro st hall
      have hmem : e.path ∈ existing := hall e (List.mem_cons_self e rest)
      have hp : processEntry existing load splitText st e =
          Except.ok { st with
            totalFiles := st.totalFiles + 1,
            currentFiles := addCurrent st.currentFiles e.path,
            skippedFiles := st.skippedFiles ++ [e.path] } := by
        unfold processEntry
        split
        · rfl
        · rename_i hn; exact absurd hmem hn
      obtain ⟨st', h', hd, hr, ht⟩ :=
        @ih { st with
          totalFiles := st.totalFiles + 1,
          currentFiles := addCurrent st.currentFiles e.path,
          skippedFiles := st.skippedFiles ++ [e.path] }
          (fun e' he' => hall e' (List.mem_cons_of_mem e he'))
      refine ⟨st', ?_, hd, hr, ht⟩
      rw [runScanFrom_cons_ok hp]
      exact h'

/-- With a loader that always yields at least one document, every scanned
path that was not skipped shows up as the source of an accumulated
document. -/
theorem runScanFrom_coverage {existing : List Path}
    {load : Path → Except String (List String)} {splitText : String → List String}
    (hload : ∀ p cs, load p = Except.ok cs → cs ≠ []) :
    ∀ {entries : List ScanEntry} {st st' : ScanState},
      runScanFrom existing load splitText st entries = Except.ok st' →
      ∀ e ∈ entries, e.path ∈ existing ∨ e.path ∈ st'.documents.map Doc.source := by
  intro entries
  induction entries with
  | nil => intro st st' _ e he; cases he
  | cons e0 rest ih =>
      intro st st' h e he
      unfold runScanFrom at h
      cases hp : processEntry existing load splitText st e0 with
      | error msg => rw [hp] at h; cases h
      | ok st1 =>
          rw [hp] at h
          rcases List.mem_cons.mp he with rfl | he'
          · rcases (processEntry_ok hp).2.2 with ⟨hmem, _⟩ | ⟨_, contents, hld, _, _, hd1, _⟩
            · exact Or.inl hmem
            · refine Or.inr ?_
              obtain ⟨l, hl⟩ := runScanFrom_documents_mono h
              have hne : contents ≠ [] := hload _ _ hld
              obtain ⟨c, cs, rfl⟩ := List.exists_cons_of_ne_nil hne
              have : Doc.mk c e.product e.path ∈ st'.documents := by
                rw [hl, hd1]
                simp
              simpa using List.mem_map_of_mem Doc.source this
          · exact ih h e he'

/-- Which files a successful scan read: exactly the scanned paths that were
not among the existing sources (as a set, together with what was read
before). -/
theorem runScanFrom_readFiles {existing : List Path}
    {load : Path → Except String (List String)} {splitText : String → List String} :
    ∀ {entries : List ScanEntry} {st st' : ScanState} {q : Path},
      runScanFrom existing load splitText st entries = Except.ok st' →
      (q ∈ st'.readFiles ↔ q ∈ st.readFiles ∨
        ∃ e ∈ entries, e.path = q ∧ q ∉ existing) := by
  intro entries
  induction entries with
  | nil =>
      intro st st' q h
      cases h
      simp
  | cons e rest ih =>
      intro st st' q h
      unfold runScanFrom at h
      cases hp : processEntry existing load splitText st e with
      | error msg => rw [hp] at h; cases h
      | ok st1 =>
          rw [hp] at h
          rw [ih h]
          rcases (processEntry_ok hp).2.2 with ⟨hmem, hr, _, _, _⟩ | ⟨hmem, contents, _, hr, _, _, _⟩
          · rw [hr]
            constructor
            · rintro (hq | ⟨e', he', rfl, hq2⟩)
              · exact Or.inl hq
              · exact Or.inr ⟨e', List.mem_cons_of_mem e he', rfl, hq2⟩
            · rintro (hq | ⟨e', he', rfl, hq2⟩)
              · exact Or.inl hq
              · rcases List.mem_cons.mp he' with rfl | he''
                · exact absurd hmem hq2
                · exact Or.inr ⟨e', he'', rfl, hq2⟩
          · rw [hr]
            simp only [List.mem_append, List.mem_singleton]
            constructor
            · rintro ((hq | rfl) | ⟨e', he', rfl, hq2⟩)
              · exact Or.inl hq
              · exact Or.inr ⟨e, List.mem_cons_self e rest, rfl, hmem⟩
              · exact Or.inr ⟨e', List.mem_cons_of_mem e he', rfl, hq2⟩
            · rintro (hq | ⟨e', he', rfl, hq2⟩)
              · exact Or.inl (Or.inl hq)
              · rcases List.mem_cons.mp he' with rfl | he''
                · exact Or.inl (Or.inr rfl)
                · exact Or.inr ⟨e', he'', rfl, hq2⟩

/-- Which files a successful scan skipped: exactly the scanned paths that
were among the existing sources. -/
theorem runScanFrom_skippedFiles {existing : List Path}
    {load : Path → Except String (List String)} {splitText : String → List String} :
    ∀ {entries : List ScanEntry} {st st' : ScanState} {q : Path},
      runScanFrom existing load splitText st entries = Except.ok st' →
      (q ∈ st'.skippedFiles ↔ q ∈ st.skippedFiles ∨
        ∃ e ∈ entries, e.path = q ∧ q ∈ existing) := by
  intro entries
  induction entries with
  | nil =>
      intro st st' q h
      cases h
      simp
  | cons e rest ih =>
      intro st st' q h
      unfold runScanFrom at h
      cases hp : processEntry existing load splitText st e with
      | error msg => rw [hp] at h; cases h
      | ok st1 =>
          rw [hp] at h
          rw [ih h]
          rcases (processEntry_ok hp).2.2 with ⟨hmem, _, hs, _, _⟩ | ⟨hmem, contents, _, _, hs, _, _⟩
          · rw [hs]
            simp only [List.mem_append, List.mem_singleton]
            constructor
            · rintro ((hq | rfl) | ⟨e', he', rfl, hq2⟩)
              · exact Or.inl hq
              · exact Or.inr ⟨e, List.mem_cons_self e rest, rfl, hmem⟩
              · exact Or.inr ⟨e', List.mem_cons_of_mem e he', rfl, hq2⟩
            · rintro (hq | ⟨e', he', rfl, hq2⟩)
              · exact Or.inl (Or.inl hq)
              · rcases List.mem_cons.mp he' with rfl | he''
                · exact Or.inl (Or.inr rfl)
                · exact Or.inr ⟨e', he'', rfl, hq2⟩
          · rw [hs]
            constructor
            · rintro (hq | ⟨e', he', rfl, hq2⟩)
              · exact Or.inl hq
              · exact Or.inr ⟨e', List.mem_cons_of_mem e he', rfl, hq2⟩
            · rintro (hq | ⟨e', he', rfl, hq2⟩)
              · exact Or.inl hq
              · rcases List.mem_cons.mp he' with rfl | he''
                · exact absurd hq2 hmem
                · exact Or.inr ⟨e', he'', rfl, hq2⟩

/-! ### Helper lemmas: the deletion loop -/

theorem runDeletes_succeeded (deleteOk : Path → Bool) (chunks : List Doc) :
    ∀ sources : List Path,
      (runDeletes deleteOk chunks sources).succeeded =
        sources.filter (fun s => deleteOk s) := by
  intro sources
  induction sources generalizing chunks with
  | nil => simp [runDeletes]
  | cons s rest ih =>
      by_cases h : deleteOk s = true
      · simp [runDeletes, h, ih]
      · simp [runDeletes, h, ih]

theorem runDeletes_failed (deleteOk : Path → Bool) (chunks : List Doc) :
    ∀ sources : List Path,
      (runDeletes deleteOk chunks sources).failed =
        sources.filter (fun s => !deleteOk s) := by
  intro sources
  induction sources generalizing chunks with
  | nil => simp [runDeletes]
  | cons s rest ih =>
      by_cases h : deleteOk s = true
      · simp [runDeletes, h, ih]
      · simp [runDeletes, h, ih]

/-- A chunk still in the store after the deletion loop was there before and
does not bear the source of any successful delete. -/
theorem runDeletes_store_spec (deleteOk : Path → Bool) :
    ∀ (sources : List Path) (chunks : List Doc),
      ∀ c ∈ (runDeletes deleteOk chunks sources).store,
        c ∈ chunks ∧ ∀ s ∈ sources, deleteOk s = true → c.source ≠ s := by
  intro sources
  induction sources with
  | nil =>
      intro chunks c hc
      exact ⟨hc, by simp⟩
  | cons s rest ih =>
      intro chunks c hc
      by_cases h : deleteOk s = true
      · simp only [runDeletes, h, if_true] at hc
        obtain ⟨hcin, hrest⟩ := ih _ c hc
        have := List.of_mem_filter hcin
        refine ⟨List.mem_of_mem_filter hcin, ?_⟩
        intro s' hs' hok'
        rcases List.mem_cons.mp hs' with rfl | hs''
        · simpa using this
        · exact hrest s' hs'' hok'
      · simp only [runDeletes, h, if_false] at hc
        obtain ⟨hcin, hrest⟩ := ih _ c hc
        refine ⟨hcin, ?_⟩
        intro s' hs' hok'
        rcases List.mem_cons.mp hs' with rfl | hs''
        · exact absurd hok' h
        · exact hrest s' hs'' hok'

/-- When every delete succeeds, the loop leaves exactly the chunks whose
source is not among the targets. -/
theorem runDeletes_store_all_ok (deleteOk : Path → Bool) :
    ∀ (sources : List Path) (chunks : List Doc),
      (∀ s ∈ sources, deleteOk s = true) →
      (runDeletes deleteOk chunks sources).store =
        chunks.filter (fun c => c.source ∉ sources) := by
  intro sources
  induction sources with
  | nil =>
      intro chunks _
      simp [runDeletes]
  | cons s rest ih =>
      intro chunks hall
      have hs : deleteOk s = true := hall s (List.mem_cons_self s rest)
      simp only [runDeletes, hs, if_true]
      rw [ih _ (fun s' hs' => hall s' (List.mem_cons_of_mem s hs')), List.filter_filter]
      congr 1
      ext c
      by_cases h1 : c.source = s <;> by_cases h2 : c.source ∈ rest <;> simp [h1, h2]

/-! ### Helper lemmas: batching -/

theorem batchesGo_fuel :
    ∀ (n m : Nat) (l : List Doc), l.length ≤ n → l.length ≤ m →
      batchesGo n l = batchesGo m l := by
  intro n
  induction n with
  | zero =>
      intro m l h1 _
      cases l with
      | nil => cases m <;> rfl
      | cons x xs => simp at h1
  | succ n ih =>
      intro m l h1 h2
      cases l with
      | nil => cases m <;> rfl
      | cons x xs =>
          cases m with
          | zero => simp at h2
          | succ m =>
              show ((x :: xs).take 5000) :: batchesGo n ((x :: xs).drop 5000) =
                ((x :: xs).take 5000) :: batchesGo m ((x :: xs).drop 5000)
              congr 1
              apply ih
              · simp only [List.length_drop, List.length_cons]
                simp only [List.length_cons] at h1
                omega
              · simp only [List.length_drop, List.length_cons]
                simp only [List.length_cons] at h2
                omega

theorem batchesOf_nil : batchesOf [] = [] := rfl

theorem batchesOf_cons_eq (x : Doc) (xs : List Doc) :
    batchesOf (x :: xs) = ((x :: xs).take 5000) :: batchesOf ((x :: xs).drop 5000) := by
  show ((x :: xs).take 5000) :: batchesGo xs.length ((x :: xs).drop 5000) =
    ((x :: xs).take 5000) :: batchesGo ((x :: xs).drop 5000).length ((x :: xs).drop 5000)
  congr 1
  apply batchesGo_fuel
  · simp only [List.length_drop, List.length_cons]
    omega
  · exact Nat.le_refl _

/-- The batches concatenate back to the whole accumulated list: every
accumulated document is submitted, once. -/
theorem batchesOf_flatten_aux :
    ∀ (n : Nat) (l : List Doc), l.length ≤ n → (batchesOf l).flatten = l := by
  intro n
  induction n with
  | zero =>
      intro l hl
      have : l = [] := List.eq_nil_of_length_eq_zero (Nat.le_zero.mp hl)
      rw [this, batchesOf_nil]
      rfl
  | succ n ih =>
      intro l hl
      cases l with
      | nil => rw [batchesOf_nil]; rfl
      | cons x xs =>
          rw [batchesOf_cons_eq, List.flatten_cons, ih (((x :: xs).drop 5000))
            (by simp only [List.length_drop, List.length_cons]
                have := Nat.le_of_lt_succ (Nat.lt_of_lt_of_le (Nat.lt_succ_self xs.length) hl)
                omega)]
          exact List.take_append_drop 5000 (x :: xs)

theorem batchesOf_flatten (l : List Doc) : (batchesOf l).flatten = l :=
  batchesOf_flatten_aux l.length l (Nat.le_refl _)

/-- No batch exceeds 5000 documents. -/
theorem batchesOf_le_aux :
    ∀ (n : Nat) (l : List Doc), l.length ≤ n →
      ∀ b ∈ batchesOf l, b.length ≤ 5000 := by
  intro n
  induction n with
  | zero =>
      intro l hl b hb
      have : l = [] := List.eq_nil_of_length_eq_zero (Nat.le_zero.mp hl)
      rw [this, batchesOf_nil] at hb
      cases hb
  | succ n ih =>
      intro l hl b hb
      cases l with
      | nil => rw [batchesOf_nil] at hb; cases hb
      | cons x xs =>
          rw [batchesOf_cons_eq] at hb
          rcases List.mem_cons.mp hb with rfl | hb'
          · simp
          · exact ih ((x :: xs).drop 5000)
              (by simp only [List.length_drop, List.length_cons]
                  have := Nat.le_of_lt_succ (Nat.lt_of_lt_of_le (Nat.lt_succ_self xs.length) hl)
                  omega) b hb'

theorem batchesOf_le (l : List Doc) : ∀ b ∈ batchesOf l, b.length ≤ 5000 :=
  batchesOf_le_aux l.length l (Nat.le_refl _)

/-! ### Helper lemmas: the directory walk and the scanner -/

theorem walkRel_node (ds : List (String × FSTree)) (fs : List String) :
    walkRel (FSTree.node ds fs) = ([], ds.map Prod.fst, fs) :: walkRelDirs ds := by
  rw [walkRel]

theorem walkRelDirs_nil : walkRelDirs [] = [] := by
  rw [walkRelDirs]

theorem walkRelDirs_cons (d : String) (sub : FSTree) (rest : List (String × FSTree)) :
    walkRelDirs ((d, sub) :: rest) =
      (walkRel sub).map (fun e => (d :: e.1, e.2)) ++ walkRelDirs rest := by
  rw [walkRelDirs]

theorem mem_walkRelDirs_of {d : String} {sub : FSTree}
    {e : Path × List String × List String} :
    ∀ {ds : List (String × FSTree)}, (d, sub) ∈ ds → e ∈ walkRel sub →
      (d :: e.1, e.2) ∈ walkRelDirs ds := by
  intro ds
  induction ds with
  | nil => intro h; cases h
  | cons p rest ih =>
      intro hmem he
      obtain ⟨a, b⟩ := p
      rw [walkRelDirs_cons, List.mem_append]
      rcases List.mem_cons.mp hmem with heq | hmem'
      · rw [Prod.mk.injEq] at heq
        obtain ⟨rfl, rfl⟩ := heq
        exact Or.inl (List.mem_map_of_mem _ he)
      · exact Or.inr (ih hmem' he)

/-- The file `f` sits in tree `t` inside the chain of directories `p`
(`p = []` means directly at the root). -/
def hasFileAt : FSTree → List String → String → Prop
  | t, [], f => f ∈ t.files
  | t, d :: rest, f => ∃ q ∈ t.dirs, q.1 = d ∧ hasFileAt q.2 rest f

/-- A file present in the tree appears in the walk, in the triple of its
directory. -/
theorem hasFileAt_walkRel {f : String} :
    ∀ {p : List String} {t : FSTree}, hasFileAt t p f →
      ∃ e ∈ walkRel t, e.1 = p ∧ f ∈ e.2.2 := by
  intro p
  induction p with
  | nil =>
      intro t hf
      cases t with
      | node ds fs =>
          refine ⟨([], ds.map Prod.fst, fs), ?_, rfl, hf⟩
          rw [walkRel_node]
          exact List.mem_cons_self _ _
  | cons d rest ih =>
      intro t hf
      obtain ⟨q, hq, hq1, hq2⟩ := hf
      obtain ⟨e, he, he1, he2⟩ := ih hq2
      cases t with
      | node ds fs =>
          refine ⟨(d :: e.1, e.2), ?_, by rw [he1], he2⟩
          rw [walkRel_node]
          refine List.mem_cons_of_mem _ ?_
          obtain ⟨a, b⟩ := q
          cases hq1
          exact mem_walkRelDirs_of hq he

theorem lookupDirs_mem_names {name : String} {sub : FSTree} :
    ∀ {ds : List (String × FSTree)}, lookupDirs ds name = some sub →
      name ∈ ds.map Prod.fst := by
  intro ds
  induction ds with
  | nil => intro h; cases h
  | cons p rest ih =>
      intro h
      obtain ⟨a, b⟩ := p
      unfold lookupDirs at h
      split at h
      · rename_i heq
        rw [List.map_cons, heq]
        exact List.mem_cons_self _ _
      · exact List.mem_cons_of_mem _ (ih h)

/-- Shape of every scanned entry: its path is the base, then its product
label as the very next component, then at least one more component (so a
file directly under the base is never scanned), ending in a recognized
file name. -/
theorem scanEntries_shape {base : Path} {t : FSTree} {e : ScanEntry}
    (he : e ∈ scanEntries base t) :
    ∃ rel f, e.path = base ++ e.product :: (rel ++ [f]) ∧ recognized f = true := by
  unfold scanEntries at he
  rw [List.mem_flatMap] at he
  obtain ⟨w, _, he⟩ := he
  rw [List.mem_flatMap] at he
  obtain ⟨d, _, he⟩ := he
  cases hlk : t.lookupTop d with
  | none => rw [hlk] at he; cases he
  | some sub =>
      rw [hlk] at he
      unfold entriesOfProduct at he
      rw [List.mem_flatMap] at he
      obtain ⟨pe, hpe, he⟩ := he
      rw [List.mem_filterMap] at he
      obtain ⟨f, hf, he⟩ := he
      unfold walk at hpe
      rw [List.mem_map] at hpe
      obtain ⟨re, _, hre⟩ := hpe
      split at he
      · rename_i hrec
        cases he
        refine ⟨re.1, f, ?_, hrec⟩
        have h1 : pe.1 = (base ++ [d]) ++ re.1 := by rw [← hre]
        simp [h1, List.append_assoc]
      · cases he

/-- Completeness of the scanner: any recognized file inside the subtree
that `os.path.join(base, d)` resolves to is scanned, with product label
`d`. -/
theorem scanEntries_complete {base : Path} {t : FSTree} {d : String} {sub : FSTree}
    {p : List String} {f : String}
    (hlk : t.lookupTop d = some sub) (hf : hasFileAt sub p f)
    (hrec : recognized f = true) :
    ScanEntry.mk d (base ++ d :: (p ++ [f])) ∈ scanEntries base t := by
  obtain ⟨e, he, he1, he2⟩ := hasFileAt_walkRel hf
  have hent : ScanEntry.mk d ((base ++ [d]) ++ e.1 ++ [f]) ∈ entriesOfProduct base d sub := by
    unfold entriesOfProduct
    rw [List.mem_flatMap]
    refine ⟨((base ++ [d]) ++ e.1, e.2), ?_, ?_⟩
    · unfold walk
      exact List.mem_map_of_mem _ he
    · rw [List.mem_filterMap]
      exact ⟨f, he2, by rw [hrec]; rfl⟩
  cases t with
  | node ds fs =>
      unfold scanEntries
      rw [List.mem_flatMap]
      refine ⟨(base ++ [], ds.map Prod.fst, fs), ?_, ?_⟩
      · unfold walk
        rw [walkRel_node]
        exact List.mem_map_of_mem _ (List.mem_cons_self _ _)
      · rw [List.mem_flatMap]
        refine ⟨d, ?_, ?_⟩
        · exact lookupDirs_mem_names hlk
        · rw [hlk]
          rw [he1] at hent
          have : base ++ d :: (p ++ [f]) = (base ++ [d]) ++ p ++ [f] := by
            simp [List.append_assoc]
          rw [this]
          exact hent

/-! ### Helper lemmas: the whole run -/

theorem runIngest_scan_error {inp : RunInput} {msg : String}
    (hscan : runScanFrom (existingListOf inp.store) inp.load inp.splitText initScan
      (scanEntries inp.base inp.fs) = Except.error msg) :
    runIngest inp = Except.error msg := by
  unfold runIngest
  rw [hscan]

theorem runIngest_scan_ok {inp : RunInput} {scan : ScanState}
    (hscan : runScanFrom (existingListOf inp.store) inp.load inp.splitText initScan
      (scanEntries inp.base inp.fs) = Except.ok scan) :
    runIngest inp = Except.ok (mkRunOutput inp scan) := by
  unfold runIngest
  rw [hscan]

/-- A successful run is the output assembled from some successful scan. -/
theorem runIngest_ok_elim {inp : RunInput} {out : RunOutput}
    (h : runIngest inp = Except.ok out) :
    ∃ scan, runScanFrom (existingListOf inp.store) inp.load inp.splitText initScan
        (scanEntries inp.base inp.fs) = Except.ok scan ∧ out = mkRunOutput inp scan := by
  cases hscan : runScanFrom (existingListOf inp.store) inp.load inp.splitText initScan
      (scanEntries inp.base inp.fs) with
  | error msg => rw [runIngest_scan_error hscan] at h; cases h
  | ok scan =>
      rw [runIngest_scan_ok hscan] at h
      injection h with h'
      exact ⟨scan, rfl, h'.symm⟩

theorem existingListOf_nodup (store : Option (List Doc)) :
    (existingListOf store).Nodup := by
  cases store with
  | none => exact List.nodup_nil
  | some chunks => exact List.nodup_dedup _

theorem mem_existingListOf {chunks : List Doc} {p : Path} :
    p ∈ existingListOf (some chunks) ↔ p ∈ chunks.map Doc.source := by
  unfold existingListOf sourcesOf
  exact List.mem_dedup

@[simp] theorem mkRunOutput_scan (inp : RunInput) (scan : ScanState) :
    (mkRunOutput inp scan).scan = scan := rfl

@[simp] theorem mkRunOutput_existingList (inp : RunInput) (scan : ScanState) :
    (mkRunOutput inp scan).existingList = existingListOf inp.store := rfl

@[simp] theorem mkRunOutput_deletedList (inp : RunInput) (scan : ScanState) :
    (mkRunOutput inp scan).deletedList = deletedOf (existingListOf inp.store) scan := rfl

@[simp] theorem mkRunOutput_delRes (inp : RunInput) (scan : ScanState) :
    (mkRunOutput inp scan).delRes =
      delResOf inp (deletedOf (existingListOf inp.store) scan) := rfl

@[simp] theorem mkRunOutput_upserts (inp : RunInput) (scan : ScanState) :
    (mkRunOutput inp scan).upserts = upsertsOf inp scan.documents := rfl

@[simp] theorem mkRunOutput_finalStore (inp : RunInput) (scan : ScanState) :
    (mkRunOutput inp scan).finalStore =
      (delResOf inp (deletedOf (existingListOf inp.store) scan)).store ++ scan.documents := rfl

@[simp] theorem mkRunOutput_report (inp : RunInput) (scan : ScanState) :
    (mkRunOutput inp scan).report =
      reportOf (existingListOf inp.store) (deletedOf (existingListOf inp.store) scan) scan := rfl

/-! ### The claims -/

/-- C10: the deletion targets of a run are always disjoint from the set of
files the scan found on disk — `deleted = snapshot - current` — and drawn
from the snapshot; on a fresh index (no pre-existing store) no delete call
occurs at all. -/
theorem c10_deleted_disjoint (inp : RunInput) (out : RunOutput)
    (h : runIngest inp = Except.ok out) :
    (∀ s ∈ out.deletedList, s ∉ out.scan.currentFiles) ∧
    (∀ s ∈ out.deletedList, s ∈ out.existingList) ∧
    (inp.store = none →
      out.deletedList = [] ∧ out.delRes.succeeded = [] ∧ out.delRes.failed = []) := by
  obtain ⟨scan, hscan, rfl⟩ := runIngest_ok_elim h
  refine ⟨?_, ?_, ?_⟩
  · intro s hs
    simp only [mkRunOutput_deletedList, deletedOf, List.mem_filter,
      decide_eq_true_eq, mkRunOutput_scan] at hs ⊢
    exact hs.2
  · intro s hs
    simp only [mkRunOutput_deletedList, deletedOf, List.mem_filter,
      mkRunOutput_existingList] at hs ⊢
    exact hs.1
  · intro hstore
    simp [mkRunOutput_deletedList, mkRunOutput_delRes, deletedOf, delResOf,
      hstore, existingListOf]

/-- C3: the reconciliation is the pure three-way set diff of the scanned
path set and the snapshot set: the files read as new are exactly
`corpus - index`, the deletion targets exactly `index - corpus`, and the
files skipped as unchanged exactly `corpus ∩ index`. -/
theorem c3_diff_pure (inp : RunInput) (out : RunOutput)
    (h : runIngest inp = Except.ok out) :
    out.scan.readFiles.toFinset =
      out.scan.currentFiles.toFinset \ out.existingList.toFinset ∧
    out.deletedList.toFinset =
      out.existingList.toFinset \ out.scan.currentFiles.toFinset ∧
    out.scan.skippedFiles.toFinset =
      out.scan.currentFiles.toFinset ∩ out.existingList.toFinset := by
  obtain ⟨scan, hscan, rfl⟩ := runIngest_ok_elim h
  simp only [mkRunOutput_scan, mkRunOutput_existingList, mkRunOutput_deletedList]
  refine ⟨?_, ?_, ?_⟩
  · ext q
    simp only [List.mem_toFinset, Finset.mem_sdiff]
    rw [runScanFrom_readFiles hscan, runScanFrom_currentFiles_mem hscan]
    simp only [initScan, List.not_mem_nil, false_or, List.mem_map]
    constructor
    · rintro ⟨e, he, rfl, hq⟩
      exact ⟨⟨e, he, rfl⟩, hq⟩
    · rintro ⟨⟨e, he, rfl⟩, hq⟩
      exact ⟨e, he, rfl, hq⟩
  · ext q
    simp only [List.mem_toFinset, Finset.mem_sdiff, deletedOf, List.mem_filter,
      decide_eq_true_eq]
  · ext q
    simp only [List.mem_toFinset, Finset.mem_inter]
    rw [runScanFrom_skippedFiles hscan, runScanFrom_currentFiles_mem hscan]
    simp only [initScan, List.not_mem_nil, false_or, List.mem_map]
    constructor
    · rintro ⟨e, he, rfl, hq⟩
      exact ⟨⟨e, he, rfl⟩, hq⟩
    · rintro ⟨⟨e, he, rfl⟩, hq⟩
      exact ⟨e, he, rfl, hq⟩

/-- C8: every count the final report prints is computed from the run's
actual results: files scanned = number of scan events, new documents =
the accumulated documents (all of which the write calls cover), deleted =
the size of `snapshot - current`, skipped = the size of
`snapshot ∩ current`. -/
theorem c8_report_counts (inp : RunInput) (out : RunOutput)
    (h : runIngest inp = Except.ok out) :
    out.report.totalFiles = (scanEntries inp.base inp.fs).length ∧
    out.report.newDocs = out.scan.documents.length ∧
    (out.upserts.map List.length).sum = out.report.newDocs ∧
    out.report.deletedCount =
      (out.existingList.toFinset \ out.scan.currentFiles.toFinset).card ∧
    out.report.skippedCount =
      (out.existingList.toFinset ∩ out.scan.currentFiles.toFinset).card := by
  obtain ⟨scan, hscan, rfl⟩ := runIngest_ok_elim h
  have hdocs : scan.totalDocs = scan.documents.length :=
    runScanFrom_totalDocs hscan rfl
  refine ⟨?_, ?_, ?_, ?_, ?_⟩
  · simp only [mkRunOutput_report, reportOf]
    have := runScanFrom_totalFiles hscan
    simpa [initScan] using this
  · simp only [mkRunOutput_report, reportOf, mkRunOutput_scan]
    exact hdocs
  · simp only [mkRunOutput_report, reportOf, mkRunOutput_upserts, upsertsOf]
    cases inp.store with
    | none => simp [hdocs]
    | some chunks =>
        rw [← List.length_flatten, batchesOf_flatten]
        exact hdocs.symm
  · simp only [mkRunOutput_report, reportOf, mkRunOutput_existingList,
      mkRunOutput_scan, deletedOf]
    have hnd : ((existingListOf inp.store).filter
        (fun p => p ∉ scan.currentFiles)).Nodup :=
      (existingListOf_nodup inp.store).filter _
    have hset : ((existingListOf inp.store).filter
        (fun p => p ∉ scan.currentFiles)).toFinset =
        (existingListOf inp.store).toFinset \ scan.currentFiles.toFinset := by
      ext q
      simp [List.mem_filter]
    rw [← hset, List.toFinset_card_of_nodup hnd]
  · simp only [mkRunOutput_report, reportOf, mkRunOutput_existingList,
      mkRunOutput_scan]
    have hnd : ((existingListOf inp.store).filter
        (fun p => p ∈ scan.currentFiles)).Nodup :=
      (existingListOf_nodup inp.store).filter _
    have hset : ((existingListOf inp.store).filter
        (fun p => p ∈ scan.currentFiles)).toFinset =
        (existingListOf inp.store).toFinset ∩ scan.currentFiles.toFinset := by
      ext q
      simp [List.mem_filter]
    rw [← hset, List.toFinset_card_of_nodup hnd]

/-- C5: the deletion executor attempts a filtered delete for every source
in the deleted set, independently — each source's outcome depends only on
its own delete call — and afterwards no chunk whose source was
successfully deleted remains in the store. -/
theorem c5_delete_executor (inp : RunInput) (out : RunOutput)
    (h : runIngest inp = Except.ok out) :
    out.delRes.succeeded = out.deletedList.filter (fun s => inp.deleteOk s) ∧
    out.delRes.failed = out.deletedList.filter (fun s => !(inp.deleteOk s)) ∧
    (∀ s ∈ out.deletedList, s ∈ out.delRes.succeeded ∨ s ∈ out.delRes.failed) ∧
    (∀ c ∈ out.finalStore, c.source ∉ out.delRes.succeeded) := by
  obtain ⟨scan, hscan, rfl⟩ := runIngest_ok_elim h
  simp only [mkRunOutput_delRes, mkRunOutput_deletedList, mkRunOutput_finalStore]
  have hsources : ∀ c ∈ scan.documents, c.source ∈ scan.currentFiles := by
    intro c hc
    rcases runScanFrom_documents_from hscan c hc with hin | ⟨e, he, _, _, rfl⟩
    · simp [initScan] at hin
    · rw [runScanFrom_currentFiles_mem hscan]
      exact Or.inr (List.mem_map_of_mem ScanEntry.path he)
  cases hst : inp.store with
  | none =>
      simp only [delResOf, hst, existingListOf, deletedOf, List.filter_nil]
      refine ⟨by simp, by simp, ?_, ?_⟩
      · intro s hs
        cases hs
      · intro c _ hc
        simp at hc
  | some chunks =>
      simp only [delResOf, hst]
      refine ⟨runDeletes_succeeded _ _ _, runDeletes_failed _ _ _, ?_, ?_⟩
      · intro s hs
        by_cases hok : inp.deleteOk s = true
        · left
          rw [runDeletes_succeeded]
          exact List.mem_filter.mpr ⟨hs, by rw [hok]⟩
        · right
          rw [runDeletes_failed]
          refine List.mem_filter.mpr ⟨hs, ?_⟩
          simp [Bool.not_eq_true] at hok
          simp [hok]
      · intro c hc hmem
        rw [runDeletes_succeeded] at hmem
        have hdel := List.mem_of_mem_filter hmem
        have hok : inp.deleteOk c.source = true := by
          have := List.of_mem_filter hmem
          simpa using this
        rcases List.mem_append.mp hc with hstore | hdoc
        · exact (runDeletes_store_spec inp.deleteOk _ chunks c hstore).2
            c.source hdel hok rfl
        · have hcur : c.source ∈ scan.currentFiles := hsources c hdoc
          have : c.source ∉ scan.currentFiles := by
            have := List.of_mem_filter hdel
            simpa using this
          exact this hcur

/-- C2 (amended): a loader failure on a new file is not caught: the run
aborts, so it does not complete with the remaining sources processed and
the failure recorded. -/
theorem c2_amended (inp : RunInput) (e : ScanEntry)
    (he : e ∈ scanEntries inp.base inp.fs)
    (hnew : e.path ∉ existingListOf inp.store)
    (hfail : isOkE (inp.load e.path) = false) :
    runCompleted inp = false := by
  unfold runCompleted
  cases hscan : runScanFrom (existingListOf inp.store) inp.load inp.splitText initScan
      (scanEntries inp.base inp.fs) with
  | error msg => rw [runIngest_scan_error hscan]; rfl
  | ok scan =>
      exfalso
      rcases runScanFrom_loads_ok hscan e he with hmem | ⟨cs, hcs⟩
      · exact hnew hmem
      · rw [hcs] at hfail
        simp [isOkE] at hfail

/-- The documents a run submits to the backend: the concatenation of its
write calls. -/
theorem upserts_flatten (inp : RunInput) (docs : List Doc) :
    (upsertsOf inp docs).flatten = docs := by
  unfold upsertsOf
  cases inp.store with
  | none => simp
  | some chunks => exact batchesOf_flatten docs

/-- C7: every chunk submitted to the backend carries as `source` the path
of the file it came from (a path the scan found, whose component right
after the base directory is exactly the chunk's `product` tag), and within
the run a source determines its product tag. -/
theorem c7_product_metadata (inp : RunInput) (out : RunOutput)
    (h : runIngest inp = Except.ok out) :
    (∀ d ∈ out.upserts.flatten, d.source ∈ out.scan.currentFiles ∧
      ∃ rest, d.source = inp.base ++ d.product :: rest) ∧
    (∀ d1 ∈ out.upserts.flatten, ∀ d2 ∈ out.upserts.flatten,
      d1.source = d2.source → d1.product = d2.product) := by
  obtain ⟨scan, hscan, rfl⟩ := runIngest_ok_elim h
  simp only [mkRunOutput_upserts, mkRunOutput_scan, upserts_flatten]
  have hfrom : ∀ d ∈ scan.documents,
      ∃ e ∈ scanEntries inp.base inp.fs, d.product = e.product ∧ d.source = e.path := by
    intro d hd
    rcases runScanFrom_documents_from hscan d hd with hin | ⟨e, he, _, c, rfl⟩
    · simp [initScan] at hin
    · exact ⟨e, he, rfl, rfl⟩
  refine ⟨?_, ?_⟩
  · intro d hd
    obtain ⟨e, he, hp, hs⟩ := hfrom d hd
    constructor
    · rw [runScanFrom_currentFiles_mem hscan, hs]
      exact Or.inr (List.mem_map_of_mem ScanEntry.path he)
    · obtain ⟨rel, f, hshape, _⟩ := scanEntries_shape he
      exact ⟨rel ++ [f], by rw [hs, hp, hshape]⟩
  · intro d1 hd1 d2 hd2 heq
    obtain ⟨e1, he1, hp1, hs1⟩ := hfrom d1 hd1
    obtain ⟨e2, he2, hp2, hs2⟩ := hfrom d2 hd2
    obtain ⟨rel1, f1, hsh1, _⟩ := scanEntries_shape he1
    obtain ⟨rel2, f2, hsh2, _⟩ := scanEntries_shape he2
    have : inp.base ++ d1.product :: (rel1 ++ [f1]) =
        inp.base ++ d2.product :: (rel2 ++ [f2]) := by
      rw [hp1, hp2, ← hsh1, ← hsh2, ← hs1, ← hs2, heq]
    have hc := List.append_cancel_left this
    exact (List.cons.injEq _ _ _ _ ▸ hc).1

/-! ### Batch size facts for C4 -/

theorem batchesOf_small {l : List Doc} (h1 : l ≠ []) (h2 : l.length ≤ 5000) :
    batchesOf l = [l] := by
  obtain ⟨x, xs, rfl⟩ := List.exists_cons_of_ne_nil h1
  rw [batchesOf_cons_eq, List.take_of_length_le h2, List.drop_eq_nil_of_le h2, batchesOf_nil]

/-- With 12000 accumulated chunks the batched path issues exactly the
slices 5000, 5000, 2000. -/
theorem batchesOf_len_12000 {l : List Doc} (h : l.length = 12000) :
    (batchesOf l).map List.length = [5000, 5000, 2000] := by
  have h1 : l ≠ [] := by
    intro e
    rw [e] at h
    simp at h
  obtain ⟨x, xs, rfl⟩ := List.exists_cons_of_ne_nil h1
  rw [batchesOf_cons_eq]
  have hl2 : ((x :: xs).drop 5000).length = 7000 := by
    rw [List.length_drop, h]
  have h2ne : (x :: xs).drop 5000 ≠ [] := by
    intro e
    rw [e] at hl2
    simp at hl2
  obtain ⟨y, ys, hys⟩ := List.exists_cons_of_ne_nil h2ne
  rw [hys] at hl2
  rw [hys, batchesOf_cons_eq]
  have hl3 : ((y :: ys).drop 5000).length = 2000 := by
    rw [List.length_drop, hl2]
  have h3ne : (y :: ys).drop 5000 ≠ [] := by
    intro e
    rw [e] at hl3
    simp at hl3
  rw [batchesOf_small h3ne (by omega)]
  simp only [List.map_cons, List.map_nil, List.length_take]
  rw [h, hl2, hl3]
  rfl

/-- C4 (amended): the 5000-chunk batching applies only when a prior
collection exists — there every write call carries at most 5000 chunks,
12000 chunks go out as 5000/5000/2000, and together the batches are
exactly the accumulated documents; on a fresh index the single
`from_documents` call creating the collection carries ALL accumulated
chunks at once, unbatched. -/
theorem c4_amended (inp : RunInput) (out : RunOutput)
    (h : runIngest inp = Except.ok out) :
    (inp.store = none → out.upserts = [out.scan.documents]) ∧
    (inp.store.isSome = true →
      out.upserts = batchesOf out.scan.documents ∧
      (∀ b ∈ out.upserts, b.length ≤ 5000) ∧
      (out.scan.documents.length = 12000 →
        out.upserts.map List.length = [5000, 5000, 2000])) ∧
    out.upserts.flatten = out.scan.documents := by
  obtain ⟨scan, hscan, rfl⟩ := runIngest_ok_elim h
  simp only [mkRunOutput_upserts, mkRunOutput_scan]
  refine ⟨?_, ?_, upserts_flatten inp scan.documents⟩
  · intro hstore
    unfold upsertsOf
    rw [hstore]
  · intro hsome
    obtain ⟨chunks, hst⟩ := Option.isSome_iff_exists.mp hsome
    have hup : upsertsOf inp scan.documents = batchesOf scan.documents := by
      unfold upsertsOf
      rw [hst]
    refine ⟨hup, ?_, ?_⟩
    · rw [hup]
      exact batchesOf_le scan.documents
    · intro hlen
      rw [hup]
      exact batchesOf_len_12000 hlen

/-! ### C6: a second run over an unchanged corpus and store is a no-op -/

/-- The inputs of a rerun straight after a run: same corpus and services,
the store now holding what the first run left behind. -/
def secondInput (inp : RunInput) (out1 : RunOutput) : RunInput :=
  { inp with store := some out1.finalStore }

theorem mem_sourcesOf {chunks : List Doc} {q : Path} :
    q ∈ sourcesOf chunks ↔ q ∈ chunks.map Doc.source := by
  unfold sourcesOf
  exact List.mem_dedup

/-- After a run in which every load yields at least one document and every
delete succeeds, the sources present in the store are exactly the files
the scan found. -/
theorem finalStore_sources (inp : RunInput) (scan : ScanState)
    (hload : ∀ p, ∃ cs, inp.load p = Except.ok cs ∧ cs ≠ [])
    (hdel : ∀ p, inp.deleteOk p = true)
    (hscan : runScanFrom (existingListOf inp.store) inp.load inp.splitText initScan
      (scanEntries inp.base inp.fs) = Except.ok scan) :
    ∀ q, q ∈ (mkRunOutput inp scan).finalStore.map Doc.source ↔
      q ∈ scan.currentFiles := by
  intro q
  have hsources : ∀ c ∈ scan.documents, c.source ∈ scan.currentFiles := by
    intro c hc
    rcases runScanFrom_documents_from hscan c hc with hin | ⟨e, he, _, _, rfl⟩
    · simp [initScan] at hin
    · rw [runScanFrom_currentFiles_mem hscan]
      exact Or.inr (List.mem_map_of_mem ScanEntry.path he)
  simp only [mkRunOutput_finalStore, List.map_append, List.mem_append]
  constructor
  · rintro (hq | hq)
    · cases hst : inp.store with
      | none =>
          simp [delResOf, hst] at hq
      | some chunks =>
          simp only [delResOf, hst] at hq
          rw [runDeletes_store_all_ok inp.deleteOk _ chunks
            (fun s _ => hdel s)] at hq
          rw [List.mem_map] at hq
          obtain ⟨c, hc, rfl⟩ := hq
          have hcin := List.mem_of_mem_filter hc
          have hpred := List.of_mem_filter hc
          simp only [decide_eq_true_eq] at hpred
          have hex : c.source ∈ existingListOf inp.store := by
            rw [hst, mem_existingListOf]
            exact List.mem_map_of_mem Doc.source hcin
          by_contra hcur
          apply hpred
          unfold deletedOf
          rw [hst] at hex
          refine List.mem_filter.mpr ⟨hex, ?_⟩
          simpa using hcur
    · rw [List.mem_map] at hq
      obtain ⟨c, hc, rfl⟩ := hq
      exact hsources c hc
  · intro hq
    rw [runScanFrom_currentFiles_mem hscan] at hq
    rcases hq with hin | hq
    · simp [initScan] at hin
    · rw [List.mem_map] at hq
      obtain ⟨e, he, rfl⟩ := hq
      by_cases hex : e.path ∈ existingListOf inp.store
      · left
        cases hst : inp.store with
        | none => rw [hst] at hex; cases hex
        | some chunks =>
            rw [hst, mem_existingListOf, List.mem_map] at hex
            obtain ⟨c, hc, hcs⟩ := hex
            simp only [delResOf, hst]
            rw [runDeletes_store_all_ok inp.deleteOk _ chunks (fun s _ => hdel s)]
            rw [List.mem_map]
            refine ⟨c, ?_, hcs⟩
            refine List.mem_filter.mpr ⟨hc, ?_⟩
            simp only [decide_eq_true_eq]
            intro hdelmem
            unfold deletedOf at hdelmem
            have hpr := List.of_mem_filter hdelmem
            simp only [decide_eq_true_eq] at hpr
            apply hpr
            rw [hcs, runScanFrom_currentFiles_mem hscan]
            exact Or.inr (List.mem_map_of_mem ScanEntry.path he)
      · right
        have hload' : ∀ p cs, inp.load p = Except.ok cs → cs ≠ [] := by
          intro p cs hcs
          obtain ⟨cs0, hcs0, hne⟩ := hload p
          rw [hcs0] at hcs
          injection hcs with h'
          rw [← h']
          exact hne
        rcases runScanFrom_coverage hload' hscan e he with hmem | hmem
        · exact absurd hmem hex
        · exact hmem

/-- C6: rerunning the engine on an unchanged corpus against the store the
first run produced (loader total and productive, backend deletes
succeeding) performs zero write calls and zero deletions, leaves the store
untouched, and reports new=0, deleted=0, unchanged=N where N is the number
of distinct files scanned. -/
theorem c6_second_run_noop (inp : RunInput) (out1 : RunOutput)
    (hload : ∀ p, ∃ cs, inp.load p = Except.ok cs ∧ cs ≠ [])
    (hdel : ∀ p, inp.deleteOk p = true)
    (h1 : runIngest inp = Except.ok out1) :
    ∃ out2, runIngest (secondInput inp out1) = Except.ok out2 ∧
      out2.upserts = [] ∧ out2.deletedList = [] ∧
      out2.delRes.succeeded = [] ∧ out2.delRes.failed = [] ∧
      out2.finalStore = out1.finalStore ∧
      out2.report.newDocs = 0 ∧ out2.report.deletedCount = 0 ∧
      out2.report.skippedCount = out1.scan.currentFiles.length := by
  obtain ⟨scan1, hscan1, rfl⟩ := runIngest_ok_elim h1
  have hex2 : existingListOf (secondInput inp (mkRunOutput inp scan1)).store =
      sourcesOf (mkRunOutput inp scan1).finalStore := rfl
  have hsrc := finalStore_sources inp scan1 hload hdel hscan1
  have hcur1 : ∀ q, q ∈ scan1.currentFiles ↔
      q ∈ (scanEntries inp.base inp.fs).map ScanEntry.path := by
    intro q
    rw [runScanFrom_currentFiles_mem hscan1]
    simp [initScan]
  have hex2mem : ∀ q,
      q ∈ existingListOf (secondInput inp (mkRunOutput inp scan1)).store ↔
        q ∈ scan1.currentFiles := by
    intro q
    rw [hex2, mem_sourcesOf]
    exact hsrc q
  have hall : ∀ e ∈ scanEntries (secondInput inp (mkRunOutput inp scan1)).base
      (secondInput inp (mkRunOutput inp scan1)).fs,
      e.path ∈ existingListOf (secondInput inp (mkRunOutput inp scan1)).store := by
    intro e he
    rw [hex2mem, hcur1]
    exact List.mem_map_of_mem ScanEntry.path he
  obtain ⟨scan2, hscan2, hdocs2, hread2, htd2⟩ :=
    @runScanFrom_skip_all
      (existingListOf (secondInput inp (mkRunOutput inp scan1)).store)
      ((secondInput inp (mkRunOutput inp scan1)).load)
      ((secondInput inp (mkRunOutput inp scan1)).splitText)
      (scanEntries (secondInput inp (mkRunOutput inp scan1)).base
        (secondInput inp (mkRunOutput inp scan1)).fs)
      initScan hall
  have hrun2 : runIngest (secondInput inp (mkRunOutput inp scan1)) =
      Except.ok (mkRunOutput (secondInput inp (mkRunOutput inp scan1)) scan2) :=
    runIngest_scan_ok hscan2
  have hcur2 : ∀ q, q ∈ scan2.currentFiles ↔
      q ∈ (scanEntries inp.base inp.fs).map ScanEntry.path := by
    intro q
    rw [runScanFrom_currentFiles_mem hscan2]
    constructor
    · rintro (h0 | h)
      · exact absurd h0 (by simp [initScan])
      · exact h
    · exact Or.inr
  have hdocs2' : scan2.documents = [] := hdocs2
  have htd2' : scan2.totalDocs = 0 := htd2
  have hdel2 : deletedOf (existingListOf (some (mkRunOutput inp scan1).finalStore))
      scan2 = [] := by
    unfold deletedOf
    rw [List.filter_eq_nil_iff]
    intro q hq
    simp only [decide_eq_true_eq, not_not]
    rw [hcur2]
    have hq' : q ∈ existingListOf (secondInput inp (mkRunOutput inp scan1)).store := hq
    rw [hex2mem] at hq'
    exact (hcur1 q).mp hq'
  have hdel2b : deletedOf (existingListOf (secondInput inp (mkRunOutput inp scan1)).store)
      scan2 = [] := hdel2
  have hst2 : (secondInput inp (mkRunOutput inp scan1)).store =
      some (mkRunOutput inp scan1).finalStore := rfl
  refine ⟨mkRunOutput (secondInput inp (mkRunOutput inp scan1)) scan2, hrun2,
    ?_, ?_, ?_, ?_, ?_, ?_, ?_, ?_⟩
  · simp only [mkRunOutput_upserts, upsertsOf, hst2, hdocs2']
    exact batchesOf_nil
  · simp only [mkRunOutput_deletedList]
    exact hdel2b
  · simp only [mkRunOutput_delRes, delResOf, hst2]
    rw [hdel2]
    rfl
  · simp only [mkRunOutput_delRes, delResOf, hst2]
    rw [hdel2]
    rfl
  · conv_lhs => rw [mkRunOutput_finalStore]
    rw [hdocs2', List.append_nil, hdel2b]
    rfl
  · simp only [mkRunOutput_report, reportOf]
    exact htd2'
  · simp only [mkRunOutput_report, reportOf]
    rw [hdel2b]
    rfl
  · simp only [mkRunOutput_report, reportOf, mkRunOutput_scan]
    have hfl : (existingListOf (secondInput inp (mkRunOutput inp scan1)).store).filter
        (fun p => p ∈ scan2.currentFiles) =
        existingListOf (secondInput inp (mkRunOutput inp scan1)).store := by
      rw [List.filter_eq_self]
      intro q hq
      simp only [decide_eq_true_eq]
      rw [hcur2]
      exact (hcur1 q).mp ((hex2mem q).mp hq)
    rw [hfl]
    have hnd2 : (existingListOf (secondInput inp (mkRunOutput inp scan1)).store).Nodup :=
      existingListOf_nodup _
    have hnd1 : scan1.currentFiles.Nodup := by
      rw [runScanFrom_currentFiles hscan1]
      exact foldl_addCurrent_nodup (by simp [initScan])
    rw [← List.toFinset_card_of_nodup hnd2, ← List.toFinset_card_of_nodup hnd1]
    congr 1
    ext q
    simp only [List.mem_toFinset]
    exact hex2mem q

/-- C9 (amended): the scanner is complete — every recognized file in the
subtree that `os.path.join(base, d)` resolves to is scanned, tagged with
product `d` — and no file directly under the base directory is ever
scanned (every scanned path has at least two components after the base);
the per-path set is deduplicated, but the scan EVENTS are not: a file can
be processed more than once (see the counterexample). -/
theorem c9_amended (base : Path) (t : FSTree) (d : String) (sub : FSTree)
    (p : List String) (f : String)
    (hlk : t.lookupTop d = some sub) (hf : hasFileAt sub p f)
    (hrec : recognized f = true) :
    (base ++ d :: (p ++ [f])) ∈ (scanEntries base t).map ScanEntry.path ∧
    ∀ e ∈ scanEntries base t, base.length + 2 ≤ e.path.length := by
  constructor
  · exact List.mem_map_of_mem ScanEntry.path (scanEntries_complete hlk hf hrec)
  · intro e he
    obtain ⟨rel, g, hsh, _⟩ := scanEntries_shape he
    rw [hsh]
    simp only [List.length_append, List.length_cons]
    omega

/-! ### C1: what is split and what is submitted -/

/-- Recursion core of the spec splitter, structural on a fuel bound on the
text length: cut a window of 1000, step forward 900. -/
def specSplitGo : Nat → List Char → List (List Char)
  | 0, s => [s]
  | fuel + 1, s =>
      if s.length ≤ 1000 then [s] else s.take 1000 :: specSplitGo fuel (s.drop 900)

/-- Modelled from the spec: the text splitter the script configures —
`CharacterTextSplitter(chunk_size=1000, chunk_overlap=100)`, langchain
library code that is not part of this repository — splits a text into
chunks of fixed size 1000 with a fixed overlap of 100 between consecutive
chunks, so successive windows start 900 units apart. -/
def specSplitChars (s : List Char) : List (List Char) :=
  specSplitGo s.length s

/-- The spec splitter on strings. -/
def specSplitText (s : String) : List String :=
  (specSplitChars s.data).map String.mk

/-- An 1100-character file: the 1000/100 splitter cuts it into two chunks. -/
def bigContent : String := String.mk (List.replicate 1100 'a')

def c1Tree : FSTree := FSTree.node [("productA", FSTree.node [] ["doc.md"])] []

/-- One new 1100-character markdown file on a fresh index, split by the
spec splitter. -/
def inpC1 : RunInput :=
  { base := ["knowledge_docs"], fs := c1Tree, store := none,
    load := fun _ => Except.ok [bigContent],
    splitText := specSplitText,
    deleteOk := fun _ => true }

/-- The texts a run hands to the backend across its write calls. -/
def submittedContents (o : RunOutput) : List String :=
  o.upserts.flatten.map Doc.content

set_option maxRecDepth 20000 in
/-- C1: on an 1100-character new file the script computes the 1000/100
split — the printed chunk count is 2 — yet the text submitted to the
backend is the single unsplit 1100-character document, not those two
chunks: `documents.extend(docs)` uses the loader output, `texts` is
discarded. -/
theorem c1_unsplit_upserted :
    (runIngest inpC1).map submittedContents = Except.ok [bigContent] ∧
    (runIngest inpC1).map (fun o => o.scan.chunkCounts) = Except.ok [2] ∧
    (specSplitText bigContent).length = 2 ∧
    specSplitText bigContent ≠ [bigContent] := by
  refine ⟨rfl, rfl, rfl, ?_⟩
  intro h
  have h1 : (specSplitText bigContent).length = 1 := by rw [h]; rfl
  have h2 : (specSplitText bigContent).length = 2 := rfl
  rw [h1] at h2
  cases h2

/-! ### Concrete scenarios: counterexamples and witnesses -/

/-- Ten markdown files under one product directory. -/
def c2Tree : FSTree :=
  FSTree.node [("productA", FSTree.node []
    ["f1.md","f2.md","f3.md","f4.md","f5.md","f6.md","f7.md","f8.md","f9.md","f10.md"])] []

/-- Fresh index, ten new files, the loader failing on the third. -/
def inpC2 : RunInput :=
  { base := ["kd"], fs := c2Tree, store := none,
    load := fun p => if p = ["kd", "productA", "f3.md"]
      then Except.error "unreadable" else Except.ok ["text"],
    splitText := fun s => [s],
    deleteOk := fun _ => true }

/-- C2 (counterexample): with one unreadable file among 10 new files the
run dies on the loader exception — it does not complete with 9 sources
embedded and one recorded failure. -/
theorem c2_counterexample : runIngest inpC2 = Except.error "unreadable" := rfl

def e3W : ScanEntry := ScanEntry.mk "productA" ["kd", "productA", "f3.md"]

/-- C2 (witness for the amended claim): the ten-file corpus with the
unreadable third file satisfies the hypotheses, and the run indeed aborts. -/
theorem c2_amended_witness : runCompleted inpC2 = false :=
  c2_amended inpC2 e3W (by decide) (by decide) rfl

def c4Tree : FSTree := FSTree.node [("productA", FSTree.node [] ["big.pdf"])] []

/-- Fresh index, one new PDF whose loader yields 12000 page documents. -/
def inpC4 : RunInput :=
  { base := ["kd"], fs := c4Tree, store := none,
    load := fun _ => Except.ok (List.replicate 12000 "page"),
    splitText := fun s => [s],
    deleteOk := fun _ => true }

/-- The sizes of a run's backend write calls. -/
def upsertSizes (o : RunOutput) : List Nat := o.upserts.map List.length

/-- The scan of a corpus with exactly one entry, not yet in the store and
loading successfully. -/
theorem runScanFrom_single_new {existing : List Path}
    {load : Path → Except String (List String)} {splitText : String → List String}
    {e : ScanEntry} {cs : List String}
    (hnew : e.path ∉ existing) (hload : load e.path = Except.ok cs) :
    runScanFrom existing load splitText initScan [e] =
      Except.ok (ScanState.mk 1 [e.path] [e.path] [] cs.length
        (cs.map (fun c => Doc.mk c e.product e.path))
        [(splitDocuments splitText (cs.map (fun c => Doc.mk c "" e.path))).length]) := by
  have hpe : processEntry existing load splitText initScan e =
      Except.ok (ScanState.mk 1 [e.path] [e.path] [] cs.length
        (cs.map (fun c => Doc.mk c e.product e.path))
        [(splitDocuments splitText (cs.map (fun c => Doc.mk c "" e.path))).length]) := by
    unfold processEntry
    rw [if_neg hnew, hload]
    simp [initScan, addCurrent, List.map_map, Function.comp]
  rw [runScanFrom_cons_ok hpe]
  rfl

def eC4 : ScanEntry := ScanEntry.mk "productA" ["kd", "productA", "big.pdf"]

/-- C4 (counterexample): on a fresh index 12000 accumulated chunks go to
the backend in ONE `from_documents` call of size 12000 — not in three
batches of at most 5000. -/
theorem c4_counterexample :
    (runIngest inpC4).map upsertSizes = Except.ok [12000] := by
  have hnew : eC4.path ∉ existingListOf inpC4.store := by
    intro h
    cases h
  have hload : inpC4.load eC4.path = Except.ok (List.replicate 12000 "page") := rfl
  have hscan := @runScanFrom_single_new (existingListOf inpC4.store) inpC4.load
    inpC4.splitText eC4 (List.replicate 12000 "page") hnew hload
  have hentries : scanEntries inpC4.base inpC4.fs = [eC4] := rfl
  have hscan2 : runScanFrom (existingListOf inpC4.store) inpC4.load inpC4.splitText
      initScan (scanEntries inpC4.base inpC4.fs) =
      Except.ok (ScanState.mk 1 [eC4.path] [eC4.path] []
        (List.replicate 12000 "page").length
        ((List.replicate 12000 "page").map (fun c => Doc.mk c eC4.product eC4.path))
        [(splitDocuments inpC4.splitText
          ((List.replicate 12000 "page").map (fun c => Doc.mk c "" eC4.path))).length]) := by
    rw [hentries]
    exact hscan
  rw [runIngest_scan_ok hscan2]
  have hstore : inpC4.store = none := rfl
  have hup : upsertsOf inpC4 ((List.replicate 12000 "page").map
      (fun c => Doc.mk c eC4.product eC4.path)) =
      [(List.replicate 12000 "page").map (fun c => Doc.mk c eC4.product eC4.path)] := by
    unfold upsertsOf
    rw [hstore]
  show Except.ok ((upsertsOf inpC4 ((List.replicate 12000 "page").map
      (fun c => Doc.mk c eC4.product eC4.path))).map List.length) = Except.ok [12000]
  rw [hup, List.map_cons, List.map_nil, List.length_map, List.length_replicate]

/-- A corpus with one product directory holding `a.md` and `b.md`. -/
def wTree : FSTree := FSTree.node [("sdwan", FSTree.node [] ["a.md", "b.md"])] []

def docA : Doc := Doc.mk "ta" "sdwan" ["kd", "sdwan", "a.md"]
def docOld : Doc := Doc.mk "to" "sdwan" ["kd", "sdwan", "old.md"]
def docBad : Doc := Doc.mk "tb" "sdwan" ["kd", "sdwan", "bad.md"]

/-- An existing store holding `a.md` (still on disk), `old.md` and
`bad.md` (both gone from disk); the backend delete fails on `bad.md`. -/
def inpW : RunInput :=
  { base := ["kd"], fs := wTree, store := some [docA, docOld, docBad],
    load := fun _ => Except.ok ["text"],
    splitText := fun s => [s],
    deleteOk := fun p => decide (p ≠ ["kd", "sdwan", "bad.md"]) }

def docB : Doc := Doc.mk "text" "sdwan" ["kd", "sdwan", "b.md"]

/-- What `runIngest inpW` computes: `a.md` skipped, `b.md` read and
upserted, `old.md` deleted, `bad.md` attempted but failing. -/
def outW : RunOutput :=
  RunOutput.mk
    (ScanState.mk 2
      [["kd", "sdwan", "a.md"], ["kd", "sdwan", "b.md"]]
      [["kd", "sdwan", "b.md"]]
      [["kd", "sdwan", "a.md"]]
      1 [docB] [1])
    [["kd", "sdwan", "a.md"], ["kd", "sdwan", "old.md"], ["kd", "sdwan", "bad.md"]]
    [["kd", "sdwan", "old.md"], ["kd", "sdwan", "bad.md"]]
    (DeleteResult.mk [docA, docBad]
      [["kd", "sdwan", "old.md"]] [["kd", "sdwan", "bad.md"]])
    [[docB]]
    [docA, docBad, docB]
    (Report.mk 2 1 1 2 1)

/-- C3 (witness): the diff of the concrete two-file scenario. -/
theorem c3_witness :
    runIngest inpW = Except.ok outW ∧
    (outW.scan.readFiles.toFinset =
        outW.scan.currentFiles.toFinset \ outW.existingList.toFinset ∧
      outW.deletedList.toFinset =
        outW.existingList.toFinset \ outW.scan.currentFiles.toFinset ∧
      outW.scan.skippedFiles.toFinset =
        outW.scan.currentFiles.toFinset ∩ outW.existingList.toFinset) :=
  ⟨rfl, c3_diff_pure inpW outW rfl⟩

/-- C5 (witness): both deletions attempted, one failure not blocking the
other, no successfully deleted source left in the store. -/
theorem c5_witness :
    runIngest inpW = Except.ok outW ∧
    (outW.delRes.succeeded = outW.deletedList.filter (fun s => inpW.deleteOk s) ∧
      outW.delRes.failed = outW.deletedList.filter (fun s => !(inpW.deleteOk s)) ∧
      (∀ s ∈ outW.deletedList, s ∈ outW.delRes.succeeded ∨ s ∈ outW.delRes.failed) ∧
      (∀ c ∈ outW.finalStore, c.source ∉ outW.delRes.succeeded)) :=
  ⟨rfl, c5_delete_executor inpW outW rfl⟩

/-- C7 (witness): product and source metadata of the submitted chunk. -/
theorem c7_witness :
    runIngest inpW = Except.ok outW ∧
    ((∀ d ∈ outW.upserts.flatten, d.source ∈ outW.scan.currentFiles ∧
        ∃ rest, d.source = inpW.base ++ d.product :: rest) ∧
      (∀ d1 ∈ outW.upserts.flatten, ∀ d2 ∈ outW.upserts.flatten,
        d1.source = d2.source → d1.product = d2.product)) :=
  ⟨rfl, c7_product_metadata inpW outW rfl⟩

/-- C8 (witness): the printed counts of the concrete scenario. -/
theorem c8_witness :
    runIngest inpW = Except.ok outW ∧
    (outW.report.totalFiles = (scanEntries inpW.base inpW.fs).length ∧
      outW.report.newDocs = outW.scan.documents.length ∧
      (outW.upserts.map List.length).sum = outW.report.newDocs ∧
      outW.report.deletedCount =
        (outW.existingList.toFinset \ outW.scan.currentFiles.toFinset).card ∧
      outW.report.skippedCount =
        (outW.existingList.toFinset ∩ outW.scan.currentFiles.toFinset).card) :=
  ⟨rfl, c8_report_counts inpW outW rfl⟩

/-- C10 (witness): deletion targets disjoint from the files on disk. -/
theorem c10_witness :
    runIngest inpW = Except.ok outW ∧
    ((∀ s ∈ outW.deletedList, s ∉ outW.scan.currentFiles) ∧
      (∀ s ∈ outW.deletedList, s ∈ outW.existingList) ∧
      (inpW.store = none →
        outW.deletedList = [] ∧ outW.delRes.succeeded = [] ∧ outW.delRes.failed = [])) :=
  ⟨rfl, c10_deleted_disjoint inpW outW rfl⟩

/-- C4 (witness for the amended claim): with an existing store the write
calls are the 5000-bounded batches. -/
theorem c4_witness :
    runIngest inpW = Except.ok outW ∧
    ((inpW.store = none → outW.upserts = [outW.scan.documents]) ∧
      (inpW.store.isSome = true →
        outW.upserts = batchesOf outW.scan.documents ∧
        (∀ b ∈ outW.upserts, b.length ≤ 5000) ∧
        (outW.scan.documents.length = 12000 →
          outW.upserts.map List.length = [5000, 5000, 2000])) ∧
      outW.upserts.flatten = outW.scan.documents) :=
  ⟨rfl, c4_amended inpW outW rfl⟩

/-- The same corpus on a fresh index: the first run of the C6 witness. -/
def inpW6 : RunInput :=
  { base := ["kd"], fs := wTree, store := none,
    load := fun _ => Except.ok ["text"],
    splitText := fun s => [s],
    deleteOk := fun _ => true }

def docA6 : Doc := Doc.mk "text" "sdwan" ["kd", "sdwan", "a.md"]

/-- What `runIngest inpW6` computes: both files read and upserted. -/
def outW6 : RunOutput :=
  RunOutput.mk
    (ScanState.mk 2
      [["kd", "sdwan", "a.md"], ["kd", "sdwan", "b.md"]]
      [["kd", "sdwan", "a.md"], ["kd", "sdwan", "b.md"]]
      []
      2 [docA6, docB] [1, 1])
    [] []
    (DeleteResult.mk [] [] [])
    [[docA6, docB]]
    [docA6, docB]
    (Report.mk 2 1 2 0 0)

/-- C6 (witness): after the fresh run, the second run over the unchanged
corpus and the produced store performs no writes and no deletions. -/
theorem c6_witness :
    runIngest inpW6 = Except.ok outW6 ∧
    (∃ out2, runIngest (secondInput inpW6 outW6) = Except.ok out2 ∧
      out2.upserts = [] ∧ out2.deletedList = [] ∧
      out2.delRes.succeeded = [] ∧ out2.delRes.failed = [] ∧
      out2.finalStore = outW6.finalStore ∧
      out2.report.newDocs = 0 ∧ out2.report.deletedCount = 0 ∧
      out2.report.skippedCount = outW6.scan.currentFiles.length) :=
  ⟨rfl, c6_second_run_noop inpW6 outW6
    (fun _ => ⟨["text"], rfl, by simp⟩) (fun _ => rfl) rfl⟩

/-- A nested directory named like the top-level product directory. -/
def dupTree : FSTree :=
  FSTree.node [("A", FSTree.node [("A", FSTree.node [] ["f.md"])] [])] []

/-- Fresh index over the name-collision corpus. -/
def inpC9 : RunInput :=
  { base := ["kd"], fs := dupTree, store := none,
    load := fun _ => Except.ok ["text"],
    splitText := fun s => [s],
    deleteOk := fun _ => true }

/-- Scan-event count, distinct tracked paths, accumulated documents. -/
def scanStats (o : RunOutput) : Nat × Nat × Nat :=
  (o.scan.totalFiles, o.scan.currentFiles.length, o.scan.documents.length)

/-- C9 (counterexample): the single recognized file `kd/A/A/f.md` produces
TWO scan entries — the outer walk meets the nested directory name `A`,
joins it onto the base and rewalks `kd/A` — so it is counted and loaded
twice (2 scan events, 2 documents) though only 1 distinct path exists. -/
theorem c9_counterexample :
    scanEntries ["kd"] dupTree =
      [ScanEntry.mk "A" ["kd", "A", "A", "f.md"],
        ScanEntry.mk "A" ["kd", "A", "A", "f.md"]] ∧
    (runIngest inpC9).map scanStats = Except.ok (2, 1, 2) :=
  ⟨rfl, rfl⟩

def subW : FSTree := FSTree.node [] ["a.md", "b.md"]

/-- C9 (witness for the amended claim): `a.md` under `sdwan` is scanned
with product `sdwan`, and every scanned path is at least two components
below the base. -/
theorem c9_amended_witness :
    ((["kd"] ++ "sdwan" :: ([] ++ ["a.md"])) ∈
      (scanEntries ["kd"] wTree).map ScanEntry.path) ∧
    (∀ e ∈ scanEntries ["kd"] wTree, (["kd"] : Path).length + 2 ≤ e.path.length) :=
  c9_amended ["kd"] wTree "sdwan" subW [] "a.md" rfl (List.mem_cons_self _ _) rfl

end Ingestion
